import Mathlib

/-!
Verification of the WebRAG content pipeline (`services/vectorstore/content_vectorizer.py`,
`services/extractor/app.py`).

Texts are modelled as lists of characters (`Str`), Python `len` as `List.length`.
All definitions are structurally recursive so that concrete runs evaluate by `decide`.
-/

set_option autoImplicit false

namespace WebRag

/-- A Python string, modelled as its list of characters. -/
abbrev Str := List Char

/-- Python's `\s` / `str.isspace` character class (ASCII part used by the repo's texts):
space, tab, newline, carriage return, vertical tab, form feed. -/
def isWS (c : Char) : Bool :=
  c = ' ' || c = '\t' || c = '\n' || c = '\r' || c = Char.ofNat 11 || c = Char.ofNat 12

/-- Python `str.rstrip()` for whitespace: drop trailing whitespace characters. -/
def stripEnd : Str → Str
  | [] => []
  | c :: rest =>
    match stripEnd rest with
    | [] => if isWS c then [] else [c]
    | r => c :: r

/-- Python `str.strip()` for whitespace: drop leading and trailing whitespace. -/
def strip (s : Str) : Str := stripEnd (s.dropWhile isWS)

/-- Python `re.sub(r'\s+', ' ', s)`: replace every maximal whitespace run by a single space
(content_vectorizer.py line 92 applies it after `strip`). -/
def collapseWS : Str → Str
  | [] => []
  | [c] => if isWS c then [' '] else [c]
  | c :: d :: rest =>
    if isWS c && isWS d then collapseWS (d :: rest)
    else if isWS c then ' ' :: collapseWS (d :: rest)
    else c :: collapseWS (d :: rest)

/-- Python `str.split()` with no argument (content_vectorizer.py line 124):
split on whitespace runs, discarding empty pieces. -/
def splitWS : Str → List Str
  | [] => []
  | c :: rest =>
    if isWS c then splitWS rest
    else
      match rest with
      | [] => [[c]]
      | d :: _ =>
        if isWS d then [c] :: splitWS rest
        else
          match splitWS rest with
          | [] => [[c]]
          | w :: ws => (c :: w) :: ws

/-- The sentence-delimiting characters of the regex `(?<=[.!?])\s+`. -/
def isSentEnd (c : Char) : Bool := c = '.' || c = '!' || c = '?'

/-- Whether the last character read so far (head of the reversed accumulator) is a
sentence-ending punctuation mark — the `(?<=[.!?])` lookbehind. -/
def lastIsSentEnd : Str → Bool
  | [] => false
  | c :: _ => isSentEnd c

/-- Worker for `re.split(r'(?<=[.!?])\s+', text)` (content_vectorizer.py line 103).
`acc` is the current segment, reversed; `skipping` is true while consuming the
remainder of a matched (greedy) whitespace run. -/
def splitSentAux : Bool → Str → Str → List Str
  | _, acc, [] => [acc.reverse]
  | skipping, acc, c :: rest =>
    if skipping && isWS c then splitSentAux true acc rest
    else if isWS c && lastIsSentEnd acc then acc.reverse :: splitSentAux true [] rest
    else splitSentAux false (c :: acc) rest

/-- Python `re.split(r'(?<=[.!?])\s+', text)`: split at whitespace runs that follow
`.`, `!` or `?`, consuming the whitespace. -/
def splitSentences (s : Str) : List Str := splitSentAux false [] s

/-- Python `a + (" " if a else "") + b` (content_vectorizer.py lines 112 and 127). -/
def joinSp (a b : Str) : Str := if a = [] then b else a ++ ' ' :: b

/-- One iteration of the inner word-packing loop (content_vectorizer.py lines 126-133).
State is `(chunks, temp_chunk)`. -/
def addWord (mx : Nat) (st : List Str × Str) (w : Str) : List Str × Str :=
  let test := joinSp st.2 w
  if test.length ≤ mx then (st.1, test)
  else ((if st.2 = [] then st.1 else st.1 ++ [st.2]), w)

/-- One iteration of the sentence-packing loop (content_vectorizer.py lines 106-137).
State is `(chunks, current_chunk)`.  Mirrors the source: strip the sentence, skip it
if empty; append it to the running chunk if the result stays within `mx`; otherwise
flush the running chunk, and either word-split an oversized sentence or start a new
chunk with it.  After word-splitting, `current_chunk` is replaced by the trailing
`temp_chunk` only when that is non-empty, exactly as in the source. -/
def addSentence (mx : Nat) (st : List Str × Str) (sen : Str) : List Str × Str :=
  let s := strip sen
  if s = [] then st
  else
    let test := joinSp st.2 s
    if test.length ≤ mx then (st.1, test)
    else
      let flushed := if st.2 = [] then st.1 else st.1 ++ [st.2]
      if mx < s.length then
        let inner := (splitWS s).foldl (addWord mx) (flushed, [])
        (inner.1, if inner.2 = [] then st.2 else inner.2)
      else (flushed, s)

/-- Final assembly of `smart_chunk` (content_vectorizer.py lines 139-148): append the
trailing `current_chunk` when non-empty, then keep the stripped form of every chunk
whose stripped form is non-empty (`[chunk.strip() for chunk in chunks if chunk.strip()]`). -/
def finishChunks (st : List Str × Str) : List Str :=
  ((if st.2 = [] then st.1 else st.1 ++ [st.2]).map strip).filter (fun c => ¬ c = [])

/-- `ContentVectorizer.smart_chunk` (content_vectorizer.py lines 86-150).
The `try` body is exception-free (pure string and regex operations), so the
`_fixed_size_chunk` fallback in the `except` arm is unreachable and not modelled.
The unused `overlap` parameter belongs to that unreachable fallback only. -/
def smart_chunk (text : Str) (max_chunk_size : Nat) : List Str :=
  if strip text = [] then []
  else
    let t := collapseWS (strip text)
    if t.length ≤ max_chunk_size then [t]
    else
      finishChunks ((splitSentences t).foldl (addSentence max_chunk_size) ([], []))

/-- C9: on input text `"Hi. Yo."` with `max_chunk_size = 4`, the Chunker returns exactly
the two chunks `["Hi.", "Yo."]` in that order. -/
theorem smart_chunk_hi_yo :
    smart_chunk ("Hi. Yo.".toList) 4 = ["Hi.".toList, "Yo.".toList] := by decide

/-! ### Lemmas about `splitWS` (Python `str.split()`): the word content of a string. -/

/-- Whether a string starts with a whitespace character. -/
def headIsWS : Str → Bool
  | [] => false
  | c :: _ => isWS c

theorem splitWS_nil : splitWS [] = [] := rfl

theorem splitWS_cons_ws {c : Char} (h : isWS c = true) (r : Str) :
    splitWS (c :: r) = splitWS r := by
  cases r <;> simp [splitWS, h]

theorem splitWS_cons_not_ws {c : Char} (hc : isWS c = false) (X : Str) :
    splitWS (c :: X) =
      if headIsWS X then [c] :: splitWS X
      else match splitWS X with | [] => [[c]] | w :: ws => (c :: w) :: ws := by
  cases X with
  | nil => simp [splitWS, headIsWS, hc]
  | cons d t =>
    by_cases hd : isWS d <;> simp [splitWS, hc, hd, headIsWS]

theorem splitWS_ne_nil {c : Char} (hc : isWS c = false) (r : Str) :
    splitWS (c :: r) ≠ [] := by
  rw [splitWS_cons_not_ws hc]
  by_cases hh : headIsWS r
  · simp [hh]
  · rcases hs : splitWS r with _ | ⟨w, ws⟩ <;> simp [hh, hs]

theorem splitWS_cons_congr {r r' : Str} (c : Char) (hsp : splitWS r = splitWS r')
    (hh : headIsWS r = headIsWS r') : splitWS (c :: r) = splitWS (c :: r') := by
  by_cases hc : isWS c
  · rw [splitWS_cons_ws hc, splitWS_cons_ws hc, hsp]
  · rw [splitWS_cons_not_ws (by simpa using hc), splitWS_cons_not_ws (by simpa using hc),
      hsp, hh]

theorem splitWS_append_ws {w : Char} (hw : isWS w = true) (a b : Str) :
    splitWS (a ++ w :: b) = splitWS a ++ splitWS b := by
  induction a with
  | nil => simpa using splitWS_cons_ws hw b
  | cons c a' ih =>
    by_cases hc : isWS c
    · rw [List.cons_append, splitWS_cons_ws hc, ih, splitWS_cons_ws hc]
    · have hc' : isWS c = false := by simpa using hc
      rw [List.cons_append, splitWS_cons_not_ws hc', splitWS_cons_not_ws hc']
      cases a' with
      | nil =>
        have h1 : headIsWS ([] ++ w :: b) = true := by simp [headIsWS, hw]
        have h2 : headIsWS ([] : Str) = false := rfl
        rw [h1, h2]
        simp only [Bool.false_eq_true, if_false, if_true, List.nil_append, splitWS_nil,
          splitWS_cons_ws hw]
        rfl
      | cons d a'' =>
        have h1 : headIsWS (d :: a'' ++ w :: b) = isWS d := rfl
        have h2 : headIsWS (d :: a'') = isWS d := rfl
        rw [h1, h2]
        by_cases hd : isWS d
        · rw [hd]
          simp only [if_true, ih]
          simp
        · have hd' : isWS d = false := by simpa using hd
          rw [hd']
          simp only [Bool.false_eq_true, if_false]
          rcases hs : splitWS (d :: a'') with _ | ⟨w1, ws⟩
          · exact absurd hs (splitWS_ne_nil hd' a'')
          · have hib : splitWS (d :: a'' ++ w :: b) = w1 :: (ws ++ splitWS b) := by
              rw [ih, hs]; rfl
            rw [hib]; rfl

theorem splitWS_joinSp (a b : Str) : splitWS (joinSp a b) = splitWS a ++ splitWS b := by
  unfold joinSp
  by_cases ha : a = []
  · simp [ha, splitWS_nil]
  · rw [if_neg ha, splitWS_append_ws (by decide)]

theorem mem_splitWS {s : Str} : ∀ w ∈ splitWS s, w ≠ [] ∧ ∀ c ∈ w, isWS c = false := by
  induction s with
  | nil => intro w h; simp [splitWS] at h
  | cons c rest ih =>
    intro w h
    by_cases hc : isWS c
    · rw [splitWS_cons_ws hc] at h; exact ih w h
    · have hc' : isWS c = false := by simpa using hc
      rw [splitWS_cons_not_ws hc'] at h
      by_cases hh : headIsWS rest
      · rw [if_pos hh] at h
        rcases List.mem_cons.mp h with h1 | h1
        · subst h1; exact ⟨by simp, by simpa using hc'⟩
        · exact ih w h1
      · rw [if_neg hh] at h
        rcases hs : splitWS rest with _ | ⟨w1, ws⟩ <;> rw [hs] at h
        · simp only [List.mem_singleton] at h
          subst h; exact ⟨by simp, by simpa using hc'⟩
        · rcases List.mem_cons.mp h with h1 | h1
          · subst h1
            have hw1 : w1 ≠ [] ∧ ∀ c ∈ w1, isWS c = false :=
              ih w1 (by rw [hs]; exact List.mem_cons_self _ _)
            refine ⟨by simp, ?_⟩
            intro x hx
            rcases List.mem_cons.mp hx with h2 | h2
            · simpa [h2] using hc'
            · exact hw1.2 x h2
          · exact ih w (by rw [hs]; exact List.mem_cons_of_mem _ h1)

theorem splitWS_eq_self {w : Str} (hne : w ≠ []) (hall : ∀ c ∈ w, isWS c = false) :
    splitWS w = [w] := by
  induction w with
  | nil => exact absurd rfl hne
  | cons c rest ih =>
    have hc : isWS c = false := hall c (List.mem_cons_self _ _)
    cases rest with
    | nil => simp [splitWS, hc]
    | cons d r =>
      have hd : isWS d = false := hall d (by simp)
      have hrest : splitWS (d :: r) = [d :: r] :=
        ih (by simp) (fun x hx => hall x (List.mem_cons_of_mem _ hx))
      rw [splitWS_cons_not_ws hc]
      simp [headIsWS, hd, hrest]

theorem splitWS_eq_nil_iff {s : Str} : splitWS s = [] ↔ ∀ c ∈ s, isWS c = true := by
  induction s with
  | nil => simp [splitWS]
  | cons c rest ih =>
    by_cases hc : isWS c
    · rw [splitWS_cons_ws hc, ih]
      constructor
      · intro h x hx
        rcases List.mem_cons.mp hx with h1 | h1
        · simpa [h1] using hc
        · exact h x h1
      · intro h x hx; exact h x (List.mem_cons_of_mem _ hx)
    · have hc' : isWS c = false := by simpa using hc
      constructor
      · intro h; exact absurd h (splitWS_ne_nil hc' rest)
      · intro h; exact absurd (h c (List.mem_cons_self _ _)) (by simp [hc'])

theorem splitWS_dropWhile (s : Str) : splitWS (s.dropWhile isWS) = splitWS s := by
  induction s with
  | nil => rfl
  | cons c r ih =>
    by_cases hc : isWS c
    · rw [List.dropWhile_cons, if_pos hc, ih, splitWS_cons_ws hc]
    · rw [List.dropWhile_cons, if_neg hc]

/-! ### Lemmas about `stripEnd`, `strip` and `collapseWS`. -/

theorem stripEnd_eq_nil_iff {s : Str} : stripEnd s = [] ↔ ∀ c ∈ s, isWS c = true := by
  induction s with
  | nil => simp [stripEnd]
  | cons c rest ih =>
    rcases hr : stripEnd rest with _ | ⟨x, r⟩
    · have hall : ∀ x ∈ rest, isWS x = true := ih.mp hr
      by_cases hc : isWS c
      · simp only [stripEnd, hr, hc, if_true]
        constructor
        · intro _ x hx
          rcases List.mem_cons.mp hx with h1 | h1
          · simpa [h1] using hc
          · exact hall x h1
        · intro _; trivial
      · simp only [stripEnd, hr, hc, if_false]
        constructor
        · intro h; exact absurd h (by simp)
        · intro h; exact absurd (h c (List.mem_cons_self _ _)) (by simpa using hc)
    · simp only [stripEnd, hr]
      constructor
      · intro h; exact absurd h (by simp)
      · intro h
        have : stripEnd rest = [] := ih.mpr (fun x hx => h x (List.mem_cons_of_mem _ hx))
        rw [this] at hr; exact absurd hr.symm (by simp)

theorem headIsWS_stripEnd {s : Str} (h : stripEnd s ≠ []) :
    headIsWS (stripEnd s) = headIsWS s := by
  cases s with
  | nil => rfl
  | cons d rest =>
    rcases hr : stripEnd rest with _ | ⟨x, r⟩
    · by_cases hd : isWS d
      · exact absurd (by simp only [stripEnd, hr, hd, if_true]) h
      · simp [stripEnd, hr, hd, headIsWS]
    · simp [stripEnd, hr, headIsWS]

theorem splitWS_stripEnd (s : Str) : splitWS (stripEnd s) = splitWS s := by
  induction s with
  | nil => rfl
  | cons c rest ih =>
    rcases hr : stripEnd rest with _ | ⟨x, r⟩
    · have hall : ∀ x ∈ rest, isWS x = true := stripEnd_eq_nil_iff.mp hr
      have hrest : splitWS rest = [] := splitWS_eq_nil_iff.mpr hall
      by_cases hc : isWS c
      · simp only [stripEnd, hr, hc, if_true, splitWS_nil]
        rw [splitWS_cons_ws hc, hrest]
      · have hc' : isWS c = false := by simpa using hc
        simp only [stripEnd, hr, hc, if_false]
        cases rest with
        | nil => rfl
        | cons d r' =>
          have hd : isWS d = true := hall d (List.mem_cons_self _ _)
          rw [splitWS_cons_not_ws hc']
          simp only [headIsWS, hd, if_true, hrest]
          simp [splitWS, hc']
    · have hne : stripEnd rest ≠ [] := by rw [hr]; simp
      have ih' : splitWS (x :: r) = splitWS rest := by rw [← hr]; exact ih
      have hh : headIsWS (x :: r) = headIsWS rest := by rw [← hr]; exact headIsWS_stripEnd hne
      have e : stripEnd (c :: rest) = c :: x :: r := by simp only [stripEnd, hr]
      rw [e]
      exact splitWS_cons_congr c ih' hh

theorem splitWS_strip (s : Str) : splitWS (strip s) = splitWS s := by
  unfold strip
  rw [splitWS_stripEnd, splitWS_dropWhile]

theorem headIsWS_dropWhile (s : Str) : headIsWS (s.dropWhile isWS) = false := by
  induction s with
  | nil => rfl
  | cons c r ih =>
    by_cases hc : isWS c
    · rw [List.dropWhile_cons, if_pos hc]; exact ih
    · rw [List.dropWhile_cons, if_neg hc]
      simpa [headIsWS] using hc

theorem headIsWS_strip {s : Str} (h : strip s ≠ []) : headIsWS (strip s) = false := by
  unfold strip at *
  rw [headIsWS_stripEnd h, headIsWS_dropWhile]

theorem splitWS_of_strip_ne_nil {s : Str} (h : strip s ≠ []) : splitWS (strip s) ≠ [] := by
  rcases he : strip s with _ | ⟨c, r⟩
  · exact absurd he h
  · have : isWS c = false := by
      have := headIsWS_strip h
      rwa [he] at this
    exact splitWS_ne_nil this r

theorem splitWS_eq_nil_of_strip {s : Str} (h : strip s = []) : splitWS s = [] := by
  rw [← splitWS_strip, h, splitWS_nil]

theorem collapseWS_cons_not_ws {c : Char} (hc : isWS c = false) (rest : Str) :
    collapseWS (c :: rest) = c :: collapseWS rest := by
  cases rest with
  | nil => simp [collapseWS, hc]
  | cons d r => simp [collapseWS, hc]

theorem collapseWS_cons_ws : ∀ (rest : Str) (d : Char), isWS d = true →
    ∃ t, collapseWS (d :: rest) = ' ' :: t := by
  intro rest
  induction rest with
  | nil => intro d hd; exact ⟨[], by simp [collapseWS, hd]⟩
  | cons e r ih =>
    intro d hd
    by_cases he : isWS e
    · obtain ⟨t, ht⟩ := ih e he
      exact ⟨t, by simp [collapseWS, hd, he, ht]⟩
    · exact ⟨collapseWS (e :: r), by simp [collapseWS, hd, he]⟩

theorem headIsWS_collapseWS (s : Str) : headIsWS (collapseWS s) = headIsWS s := by
  cases s with
  | nil => rfl
  | cons d r =>
    by_cases hd : isWS d
    · obtain ⟨t, ht⟩ := collapseWS_cons_ws r d hd
      rw [ht]
      have h1 : headIsWS (' ' :: t) = true := by simp [headIsWS, isWS]
      have h2 : headIsWS (d :: r) = true := by simpa [headIsWS] using hd
      rw [h1, h2]
    · have hd' : isWS d = false := by simpa using hd
      rw [collapseWS_cons_not_ws hd']
      simp [headIsWS]

theorem splitWS_collapseWS (s : Str) : splitWS (collapseWS s) = splitWS s := by
  induction s with
  | nil => rfl
  | cons c rest ih =>
    by_cases hc : isWS c
    · cases rest with
      | nil =>
        have h1 : collapseWS [c] = [' '] := by simp [collapseWS, hc]
        rw [h1, splitWS_cons_ws (by decide : isWS ' ' = true), splitWS_cons_ws hc]
      | cons d r =>
        by_cases hd : isWS d
        · have h1 : collapseWS (c :: d :: r) = collapseWS (d :: r) := by
            simp [collapseWS, hc, hd]
          rw [h1, ih, splitWS_cons_ws hc]
        · have h1 : collapseWS (c :: d :: r) = ' ' :: collapseWS (d :: r) := by
            simp [collapseWS, hc, hd]
          rw [h1, splitWS_cons_ws (by decide : isWS ' ' = true), ih, splitWS_cons_ws hc]
    · have hc' : isWS c = false := by simpa using hc
      rw [collapseWS_cons_not_ws hc']
      exact splitWS_cons_congr c ih (headIsWS_collapseWS rest)

/-- Normalisation (lines 88-92 of content_vectorizer.py) preserves word content. -/
theorem splitWS_normalize (s : Str) : splitWS (collapseWS (strip s)) = splitWS s := by
  rw [splitWS_collapseWS, splitWS_strip]

/-! ### The sentence split preserves word content. -/

theorem splitSentAux_words : ∀ (s : Str) (skipping : Bool) (acc : Str),
    (skipping = true → acc = []) →
    ((splitSentAux skipping acc s).map splitWS).flatten = splitWS (acc.reverse ++ s) := by
  intro s
  induction s with
  | nil =>
    intro skipping acc _
    simp [splitSentAux]
  | cons c rest ih =>
    intro skipping acc hsk
    by_cases h1 : skipping = true ∧ isWS c = true
    · have hacc : acc = [] := hsk h1.1
      subst hacc
      have e : splitSentAux skipping [] (c :: rest) = splitSentAux true [] rest := by
        simp [splitSentAux, h1.1, h1.2]
      rw [e, ih true [] (fun _ => rfl)]
      simp [splitWS_cons_ws h1.2]
    · by_cases h2 : isWS c = true ∧ lastIsSentEnd acc = true
      · have e : splitSentAux skipping acc (c :: rest) =
            acc.reverse :: splitSentAux true [] rest := by
          rcases Decidable.em (skipping = true) with hs | hs
          · have : isWS c = false := by
              by_contra hh
              exact h1 ⟨hs, by simpa using hh⟩
            rw [this] at h2
            exact absurd h2.1 (by simp)
          · have hs' : skipping = false := by simpa using hs
            simp [splitSentAux, hs', h2.1, h2.2]
        rw [e]
        simp only [List.map_cons, List.flatten_cons]
        rw [ih true [] (fun _ => rfl)]
        simp only [List.reverse_nil, List.nil_append]
        rw [splitWS_append_ws h2.1]
      · have e : splitSentAux skipping acc (c :: rest) =
            splitSentAux false (c :: acc) rest := by
          rcases hcw : isWS c with _ | _
          · simp [splitSentAux, hcw]
          · have hsk' : skipping = false := by
              by_contra hh
              exact h1 ⟨by simpa using hh, hcw⟩
            have hle : lastIsSentEnd acc = false := by
              by_contra hh
              exact h2 ⟨hcw, by simpa using hh⟩
            simp [splitSentAux, hsk', hcw, hle]
        rw [e, ih false (c :: acc) (by simp)]
        simp

theorem splitSentences_words (s : Str) :
    ((splitSentences s).map splitWS).flatten = splitWS s := by
  unfold splitSentences
  simpa using splitSentAux_words s false [] (by simp)

/-! ### Word content of the greedy packing fold. -/

/-- The words contained in a fold state `(chunks, current_chunk)`. -/
def wordsOf (st : List Str × Str) : List Str := (st.1.map splitWS).flatten ++ splitWS st.2

theorem joinSp_ne_nil {a b : Str} (hb : b ≠ []) : joinSp a b ≠ [] := by
  unfold joinSp
  by_cases ha : a = []
  · simpa [ha] using hb
  · simp [ha]

theorem wordsOf_addWord (mx : Nat) (st : List Str × Str) (w : Str) :
    wordsOf (addWord mx st w) = wordsOf st ++ splitWS w := by
  unfold addWord wordsOf
  by_cases h : (joinSp st.2 w).length ≤ mx
  · simp only [h, if_true]
    rw [splitWS_joinSp]
    simp [List.append_assoc]
  · simp only [h, if_false]
    by_cases h2 : st.2 = []
    · simp [h2, splitWS_nil]
    · simp [h2, splitWS_nil, List.append_assoc]

theorem wordsOf_foldl_addWord (mx : Nat) (ws : List Str) (st : List Str × Str) :
    wordsOf (ws.foldl (addWord mx) st) = wordsOf st ++ (ws.map splitWS).flatten := by
  induction ws generalizing st with
  | nil => simp
  | cons w rest ih =>
    rw [List.foldl_cons, ih, wordsOf_addWord]
    simp [List.append_assoc]

theorem join_map_splitWS_self {l : List Str} (h : ∀ w ∈ l, splitWS w = [w]) :
    (l.map splitWS).flatten = l := by
  induction l with
  | nil => rfl
  | cons w rest ih =>
    simp only [List.map_cons, List.flatten_cons]
    rw [h w (List.mem_cons_self _ _), ih (fun x hx => h x (List.mem_cons_of_mem _ hx))]
    rfl

theorem snd_addWord_ne_nil (mx : Nat) (st : List Str × Str) {w : Str} (hw : w ≠ []) :
    (addWord mx st w).2 ≠ [] := by
  unfold addWord
  by_cases h : (joinSp st.2 w).length ≤ mx
  · simpa [h] using joinSp_ne_nil hw
  · simpa [h] using hw

theorem snd_foldl_addWord_ne_nil (mx : Nat) : ∀ (ws : List Str) (st : List Str × Str),
    ws ≠ [] → (∀ w ∈ ws, w ≠ []) → (ws.foldl (addWord mx) st).2 ≠ [] := by
  intro ws
  induction ws with
  | nil => intro st h; exact absurd rfl h
  | cons w rest ih =>
    intro st _ hall
    cases rest with
    | nil =>
      simpa [List.foldl_cons] using
        snd_addWord_ne_nil mx st (hall w (List.mem_cons_self _ _))
    | cons w2 r2 =>
      rw [List.foldl_cons]
      exact ih _ (by simp) (fun x hx => hall x (List.mem_cons_of_mem _ hx))

theorem wordsOf_pair_eta (p : List Str × Str) : wordsOf (p.1, p.2) = wordsOf p := rfl

theorem wordsOf_addSentence (mx : Nat) (st : List Str × Str) (sen : Str) :
    wordsOf (addSentence mx st sen) = wordsOf st ++ splitWS sen := by
  unfold addSentence
  by_cases h0 : strip sen = []
  · rw [if_pos h0]
    rw [show splitWS sen = [] from by rw [← splitWS_strip, h0, splitWS_nil]]
    simp
  · rw [if_neg h0]
    have hsen : splitWS (strip sen) = splitWS sen := splitWS_strip sen
    by_cases h1 : (joinSp st.2 (strip sen)).length ≤ mx
    · simp only [h1, if_true]
      unfold wordsOf
      rw [splitWS_joinSp, hsen]
      simp [List.append_assoc]
    · simp only [h1, if_false]
      by_cases h2 : mx < (strip sen).length
      · simp only [h2, if_true]
        have hwordsne : splitWS (strip sen) ≠ [] := splitWS_of_strip_ne_nil h0
        have hwords : ∀ w ∈ splitWS (strip sen), w ≠ [] :=
          fun w hw => (mem_splitWS w hw).1
        have hsingle : ∀ w ∈ splitWS (strip sen), splitWS w = [w] :=
          fun w hw => splitWS_eq_self (mem_splitWS w hw).1 (mem_splitWS w hw).2
        have hsnd := snd_foldl_addWord_ne_nil mx (splitWS (strip sen))
          ((if st.2 = [] then st.1 else st.1 ++ [st.2]), []) hwordsne hwords
        rw [if_neg hsnd, wordsOf_pair_eta, wordsOf_foldl_addWord,
          join_map_splitWS_self hsingle, hsen]
        unfold wordsOf
        by_cases h3 : st.2 = []
        · simp [h3, splitWS_nil]
        · simp [h3, splitWS_nil, List.append_assoc]
      · simp only [h2, if_false]
        unfold wordsOf
        by_cases h3 : st.2 = []
        · simp [h3, splitWS_nil, hsen]
        · simp [h3, splitWS_nil, hsen, List.append_assoc]

theorem wordsOf_foldl_addSentence (mx : Nat) (sens : List Str) (st : List Str × Str) :
    wordsOf (sens.foldl (addSentence mx) st) = wordsOf st ++ (sens.map splitWS).flatten := by
  induction sens generalizing st with
  | nil => simp
  | cons s rest ih =>
    rw [List.foldl_cons, ih, wordsOf_addSentence]
    simp [List.append_assoc]

/-! ### Size invariant of the greedy packing fold. -/

/-- A chunk respects the size bound, or equals its own single whitespace-free token
(the one oversized-token exception of the chunker contract). -/
def okChunk (mx : Nat) (c : Str) : Prop := c.length ≤ mx ∨ splitWS c = [c]

theorem okChunk_addWord (mx : Nat) (st : List Str × Str) {w : Str}
    (h1 : ∀ c ∈ st.1, okChunk mx c) (h2 : okChunk mx st.2) (hw : splitWS w = [w]) :
    (∀ c ∈ (addWord mx st w).1, okChunk mx c) ∧ okChunk mx (addWord mx st w).2 := by
  unfold addWord
  by_cases h : (joinSp st.2 w).length ≤ mx
  · simp only [h, if_true]
    exact ⟨h1, Or.inl h⟩
  · simp only [h, if_false]
    refine ⟨?_, Or.inr hw⟩
    by_cases h3 : st.2 = []
    · simpa [h3] using h1
    · simp only [h3, if_false]
      intro c hc
      rcases List.mem_append.mp hc with h4 | h4
      · exact h1 c h4
      · rw [List.mem_singleton] at h4; subst h4; exact h2

theorem okChunk_foldl_addWord (mx : Nat) (ws : List Str) (st : List Str × Str)
    (h1 : ∀ c ∈ st.1, okChunk mx c) (h2 : okChunk mx st.2)
    (hws : ∀ w ∈ ws, splitWS w = [w]) :
    (∀ c ∈ (ws.foldl (addWord mx) st).1, okChunk mx c) ∧
      okChunk mx (ws.foldl (addWord mx) st).2 := by
  induction ws generalizing st with
  | nil => exact ⟨h1, h2⟩
  | cons w rest ih =>
    rw [List.foldl_cons]
    have hstep := okChunk_addWord mx st h1 h2 (hws w (List.mem_cons_self _ _))
    exact ih _ hstep.1 hstep.2 (fun x hx => hws x (List.mem_cons_of_mem _ hx))

theorem okChunk_addSentence (mx : Nat) (st : List Str × Str) (sen : Str)
    (h1 : ∀ c ∈ st.1, okChunk mx c) (h2 : okChunk mx st.2) :
    (∀ c ∈ (addSentence mx st sen).1, okChunk mx c) ∧
      okChunk mx (addSentence mx st sen).2 := by
  unfold addSentence
  by_cases h0 : strip sen = []
  · simp only [h0, if_true]; exact ⟨h1, h2⟩
  · simp only [h0, if_false]
    by_cases hlen : (joinSp st.2 (strip sen)).length ≤ mx
    · simp only [hlen, if_true]
      exact ⟨h1, Or.inl hlen⟩
    · simp only [hlen, if_false]
      have hflush : ∀ c ∈ (if st.2 = [] then st.1 else st.1 ++ [st.2]), okChunk mx c := by
        by_cases h3 : st.2 = []
        · simpa [h3] using h1
        · simp only [h3, if_false]
          intro c hc
          rcases List.mem_append.mp hc with h4 | h4
          · exact h1 c h4
          · rw [List.mem_singleton] at h4; subst h4; exact h2
      by_cases hbig : mx < (strip sen).length
      · simp only [hbig, if_true]
        have hsingle : ∀ w ∈ splitWS (strip sen), splitWS w = [w] :=
          fun w hw => splitWS_eq_self (mem_splitWS w hw).1 (mem_splitWS w hw).2
        have hinner := okChunk_foldl_addWord mx (splitWS (strip sen))
          ((if st.2 = [] then st.1 else st.1 ++ [st.2]), []) hflush (Or.inl (by simp)) hsingle
        refine ⟨hinner.1, ?_⟩
        by_cases h4 : ((splitWS (strip sen)).foldl (addWord mx)
            ((if st.2 = [] then st.1 else st.1 ++ [st.2]), [])).2 = []
        · rw [if_pos h4]; exact h2
        · rw [if_neg h4]; exact hinner.2
      · simp only [hbig, if_false]
        exact ⟨hflush, Or.inl (Nat.le_of_not_lt hbig)⟩

theorem okChunk_foldl_addSentence (mx : Nat) (sens : List Str) (st : List Str × Str)
    (h1 : ∀ c ∈ st.1, okChunk mx c) (h2 : okChunk mx st.2) :
    (∀ c ∈ (sens.foldl (addSentence mx) st).1, okChunk mx c) ∧
      okChunk mx (sens.foldl (addSentence mx) st).2 := by
  induction sens generalizing st with
  | nil => exact ⟨h1, h2⟩
  | cons s rest ih =>
    rw [List.foldl_cons]
    have hstep := okChunk_addSentence mx st s h1 h2
    exact ih _ hstep.1 hstep.2

/-! ### Support lemmas for the final chunk assembly. -/

theorem collapseWS_ne_nil {s : Str} (h : s ≠ []) : collapseWS s ≠ [] := by
  induction s with
  | nil => exact absurd rfl h
  | cons c rest ih =>
    cases rest with
    | nil =>
      by_cases hc : isWS c <;> simp [collapseWS, hc]
    | cons d r =>
      by_cases hc : isWS c
      · by_cases hd : isWS d
        · have e : collapseWS (c :: d :: r) = collapseWS (d :: r) := by
            simp [collapseWS, hc, hd]
          rw [e]; exact ih (by simp)
        · have e : collapseWS (c :: d :: r) = ' ' :: collapseWS (d :: r) := by
            simp [collapseWS, hc, hd]
          rw [e]; simp
      · rw [collapseWS_cons_not_ws (by simpa using hc)]; simp

theorem strip_eq_nil_of_all_ws {s : Str} (h : ∀ c ∈ s, isWS c = true) : strip s = [] := by
  unfold strip
  have hd : s.dropWhile isWS = [] := by
    induction s with
    | nil => rfl
    | cons c r ih =>
      rw [List.dropWhile_cons, if_pos (h c (List.mem_cons_self _ _))]
      exact ih (fun x hx => h x (List.mem_cons_of_mem _ hx))
  rw [hd]; rfl

theorem stripEnd_eq_self_of_no_ws {s : Str} (h : ∀ c ∈ s, isWS c = false) :
    stripEnd s = s := by
  induction s with
  | nil => rfl
  | cons c rest ih =>
    have hr : stripEnd rest = rest := ih (fun x hx => h x (List.mem_cons_of_mem _ hx))
    cases rest with
    | nil => simp [stripEnd, h c (List.mem_cons_self _ _)]
    | cons x r =>
      have e : stripEnd (c :: x :: r) =
          match stripEnd (x :: r) with
          | [] => if isWS c then [] else [c]
          | r' => c :: r' := rfl
      rw [e, hr]

theorem strip_eq_self_of_no_ws {s : Str} (h : ∀ c ∈ s, isWS c = false) : strip s = s := by
  unfold strip
  have hd : s.dropWhile isWS = s := by
    cases s with
    | nil => rfl
    | cons c r => rw [List.dropWhile_cons, if_neg (by simp [h c (List.mem_cons_self _ _)])]
  rw [hd]
  exact stripEnd_eq_self_of_no_ws h

theorem length_stripEnd_le (s : Str) : (stripEnd s).length ≤ s.length := by
  induction s with
  | nil => simp [stripEnd]
  | cons c rest ih =>
    rcases hr : stripEnd rest with _ | ⟨x, r⟩
    · by_cases hc : isWS c <;> simp [stripEnd, hr, hc]
    · have e : stripEnd (c :: rest) = c :: x :: r := by simp only [stripEnd, hr]
      rw [e]
      have hlen := ih
      rw [hr] at hlen
      simpa using Nat.succ_le_succ hlen

theorem length_dropWhile_isWS_le (s : Str) : (s.dropWhile isWS).length ≤ s.length := by
  induction s with
  | nil => simp
  | cons c r ih =>
    rw [List.dropWhile_cons]
    by_cases hc : isWS c
    · rw [if_pos hc]; exact le_trans ih (by simp)
    · rw [if_neg hc]

theorem length_strip_le (s : Str) : (strip s).length ≤ s.length := by
  unfold strip
  exact le_trans (length_stripEnd_le _) (length_dropWhile_isWS_le _)

theorem flatten_map_splitWS_filter_strip (cs : List Str) :
    (((cs.map strip).filter (fun c => ¬ c = [])).map splitWS).flatten
      = (cs.map splitWS).flatten := by
  induction cs with
  | nil => rfl
  | cons c rest ih =>
    simp only [decide_not] at ih ⊢
    simp only [List.map_cons, List.filter_cons]
    by_cases h : strip c = []
    · have hc : splitWS c = [] := by rw [← splitWS_strip, h, splitWS_nil]
      simp [h, hc, ih]
    · have hc : splitWS (strip c) = splitWS c := splitWS_strip c
      simp [h, hc, ih]

theorem words_finishChunks (st : List Str × Str) :
    ((finishChunks st).map splitWS).flatten = wordsOf st := by
  unfold finishChunks
  rw [flatten_map_splitWS_filter_strip]
  by_cases h : st.2 = []
  · simp [h, wordsOf, splitWS_nil]
  · simp [h, wordsOf, splitWS_nil]

theorem mem_finishChunks {st : List Str × Str} {c : Str} (h : c ∈ finishChunks st) :
    ∃ c0, (c0 ∈ st.1 ∨ c0 = st.2) ∧ c = strip c0 ∧ strip c0 ≠ [] := by
  unfold finishChunks at h
  rw [List.mem_filter] at h
  obtain ⟨hmem, hne⟩ := h
  rw [List.mem_map] at hmem
  obtain ⟨c0, hc0, hceq⟩ := hmem
  have hnil : c ≠ [] := by simpa using hne
  refine ⟨c0, ?_, hceq.symm, hceq ▸ hnil⟩
  by_cases h2 : st.2 = []
  · rw [if_pos h2] at hc0; exact Or.inl hc0
  · rw [if_neg h2] at hc0
    rcases List.mem_append.mp hc0 with h3 | h3
    · exact Or.inl h3
    · exact Or.inr (by rwa [List.mem_singleton] at h3)

/-- C3: for every input text and every `max_chunk_size`, the Chunker returns no empty or
whitespace-only chunk (each chunk is non-empty and contains at least one word); the chunks
appear in source order and exhaust the input (the concatenation of their words is exactly
the word sequence of the input); every chunk's length is at most `max_chunk_size` except
for a chunk that is a single whitespace-delimited token; and whitespace-only (or empty)
input yields the empty sequence. -/
theorem smart_chunk_spec (text : Str) (mx : Nat) :
    (∀ c ∈ smart_chunk text mx, c ≠ [] ∧ splitWS c ≠ []) ∧
    ((smart_chunk text mx).map splitWS).flatten = splitWS text ∧
    (∀ c ∈ smart_chunk text mx, c.length ≤ mx ∨ splitWS c = [c]) ∧
    ((∀ c ∈ text, isWS c = true) → smart_chunk text mx = []) := by
  by_cases h0 : strip text = []
  · have he : smart_chunk text mx = [] := by unfold smart_chunk; rw [if_pos h0]
    refine ⟨by simp [he], ?_, by simp [he], fun _ => he⟩
    rw [he, splitWS_eq_nil_of_strip h0]
    rfl
  · by_cases h1 : (collapseWS (strip text)).length ≤ mx
    · have he : smart_chunk text mx = [collapseWS (strip text)] := by
        unfold smart_chunk
        rw [if_neg h0]
        simp only [h1, if_true]
      refine ⟨?_, ?_, ?_, ?_⟩
      · intro c hc
        rw [he, List.mem_singleton] at hc
        subst hc
        refine ⟨collapseWS_ne_nil h0, ?_⟩
        rw [splitWS_collapseWS]
        exact splitWS_of_strip_ne_nil h0
      · rw [he]
        simp only [List.map_cons, List.map_nil, List.flatten_cons, List.flatten_nil,
          List.append_nil]
        exact splitWS_normalize text
      · intro c hc
        rw [he, List.mem_singleton] at hc
        subst hc
        exact Or.inl h1
      · intro hall
        exact absurd (strip_eq_nil_of_all_ws hall) h0
    · have he : smart_chunk text mx =
          finishChunks ((splitSentences (collapseWS (strip text))).foldl
            (addSentence mx) ([], [])) := by
        unfold smart_chunk
        rw [if_neg h0]
        simp only [h1, if_false]
      have hinv := okChunk_foldl_addSentence mx
        (splitSentences (collapseWS (strip text))) ([], [])
        (by intro c hc; simp at hc) (Or.inl (by simp))
      have hwords : wordsOf ((splitSentences (collapseWS (strip text))).foldl
          (addSentence mx) ([], [])) = splitWS text := by
        rw [wordsOf_foldl_addSentence]
        simp only [wordsOf, List.map_nil, List.flatten_nil, splitWS_nil, List.nil_append,
          List.append_nil]
        rw [splitSentences_words, splitWS_normalize]
      refine ⟨?_, ?_, ?_, ?_⟩
      · intro c hc
        rw [he] at hc
        obtain ⟨c0, _, hceq, hne⟩ := mem_finishChunks hc
        subst hceq
        exact ⟨hne, splitWS_of_strip_ne_nil hne⟩
      · rw [he, words_finishChunks]
        exact hwords
      · intro c hc
        rw [he] at hc
        obtain ⟨c0, hmem, hceq, _⟩ := mem_finishChunks hc
        have hok : okChunk mx c0 := by
          rcases hmem with h2 | h2
          · exact hinv.1 c0 h2
          · rw [h2]; exact hinv.2
        subst hceq
        rcases hok with h2 | h2
        · exact Or.inl (le_trans (length_strip_le c0) h2)
        · have hprops := mem_splitWS c0 (by rw [h2]; exact List.mem_singleton_self _)
          have hss : strip c0 = c0 := strip_eq_self_of_no_ws hprops.2
          rw [hss]
          exact Or.inr h2
      · intro hall
        exact absurd (strip_eq_nil_of_all_ws hall) h0

/-- Witness for C3 at the concrete input `"Hi. Yo."` with `max_chunk_size = 4`. -/
theorem smart_chunk_spec_witness :
    ("Hi.".toList ≠ [] ∧ splitWS "Hi.".toList ≠ []) ∧
    ((smart_chunk "Hi. Yo.".toList 4).map splitWS).flatten = splitWS "Hi. Yo.".toList ∧
    ("Hi.".toList.length ≤ 4 ∨ splitWS "Hi.".toList = ["Hi.".toList]) ∧
    smart_chunk "   ".toList 4 = [] := by
  have h1 := smart_chunk_spec "Hi. Yo.".toList 4
  have h2 := smart_chunk_spec "   ".toList 4
  exact ⟨h1.1 "Hi.".toList (by decide), h1.2.1,
    h1.2.2.1 "Hi.".toList (by decide), h2.2.2.2 (by decide)⟩

/-! ### Ingestion: `ContentVectorizer.process_content` (content_vectorizer.py lines 178-254).

The external collaborators are modelled as follows:
- the embedding service (`get_ollama_embedding`, an HTTP call to Ollama) is an oracle
  `embed : Str → Option Emb`; `none` models the call raising an exception;
- `hashlib.sha256(text.encode()).hexdigest()[:16]` (line 26) is an oracle `hash : Str → Str`;
  it is a pure function of the text alone, which is all the control flow depends on;
- the ChromaDB collection is a list of stored records; `collection.get(where=...)` filters
  by metadata hash, and `collection.add` validates that ids, documents, embeddings and
  metadatas have equal lengths (raising `ValueError` otherwise, modelled as `none`) and
  appends the records. -/

/-- An embedding vector. Its numeric values play no role in the verified control flow. -/
abbrev Emb := List ℚ

/-- The metadata dict built for each chunk (content_vectorizer.py lines 222-229). -/
structure ChunkMeta where
  url : Str
  title : Str
  chunk_id : Nat
  content_hash : Str
  timestamp : ℚ
  total_chunks : Nat
deriving DecidableEq

/-- One stored record of the ChromaDB collection. -/
structure Entry where
  id : Str
  document : Str
  embedding : Emb
  metadata : ChunkMeta
deriving DecidableEq

/-- The external collaborators of the vectorizer: the sha256-based hash and the
embedding service. -/
structure VecEnv where
  hash : Str → Str
  embed : Str → Option Emb

/-- `ContentResult.__init__` (content_vectorizer.py lines 19-26). -/
structure ContentResult where
  url : Str
  title : Str
  text : Str
  timestamp : ℚ
deriving DecidableEq

/-- `content_hash` as computed in `ContentResult.__init__` (line 26): a digest of the
text alone — url, title and timestamp do not enter it. -/
def ContentResult.content_hash (c : ContentResult) (env : VecEnv) : Str := env.hash c.text

/-- The result dict of `process_content`: status plus optional fields depending on branch. -/
structure ProcResult where
  status : String
  chunks : Option Nat
  content_hash : Str
  url : Option Str
  title : Option Str
  error : Option String
deriving DecidableEq

/-- The `"search_document: "` task prefixing applied by `get_ollama_embedding` (line 68). -/
def docTask (t : Str) : Str := "search_document: ".toList ++ t

/-- The chunks of a content record: `self.smart_chunk(content.text, max_chunk_size=512)`. -/
def chunksOf (c : ContentResult) : List Str := smart_chunk c.text 512

/-- The surviving embeddings after the per-chunk loop (lines 206-214): a failing chunk
is skipped (`continue`) and contributes nothing. -/
def embeddingsOf (env : VecEnv) (c : ContentResult) : List Emb :=
  (chunksOf c).filterMap (fun ch => env.embed (docTask ch))

/-- Decimal rendering of an index, as used in the id f-string. -/
def natStr (n : Nat) : Str := (toString n).toList

/-- `chunk_ids = [f"{content.content_hash}_{i}" for i in range(len(chunks))]` (line 221). -/
def idsOf (env : VecEnv) (c : ContentResult) : List Str :=
  (List.range (chunksOf c).length).map (fun i => env.hash c.text ++ '_' :: natStr i)

/-- The metadata list (lines 222-229), one per original chunk. -/
def metasOf (env : VecEnv) (c : ContentResult) : List ChunkMeta :=
  (List.range (chunksOf c).length).map (fun i =>
    ⟨c.url, c.title, i, env.hash c.text, c.timestamp, (chunksOf c).length⟩)

/-- `collection.get(where={"content_hash": ...})`: the stored records carrying the hash. -/
def getByHash (col : List Entry) (h : Str) : List Entry :=
  col.filter (fun e => e.metadata.content_hash = h)

/-- Pair up parallel id/document/embedding/metadata lists into records. -/
def mkEntries : List Str → List Str → List Emb → List ChunkMeta → List Entry
  | i :: is, d :: ds, e :: es, m :: ms => ⟨i, d, e, m⟩ :: mkEntries is ds es ms
  | _, _, _, _ => []

/-- Models `collection.add(ids=…, documents=…, embeddings=…, metadatas=…)`: chromadb
validates that the four batch fields have equal lengths and raises `ValueError` on a
mismatch (modelled as `none`); otherwise the records are appended. -/
def collectionAdd (col : List Entry) (ids docs : List Str) (embs : List Emb)
    (metas : List ChunkMeta) : Option (List Entry) :=
  if ids.length = docs.length ∧ ids.length = embs.length ∧ ids.length = metas.length
  then some (col ++ mkEntries ids docs embs metas) else none

/-- `ContentVectorizer.process_content` (content_vectorizer.py lines 178-254), as a state
transition on the stored collection.  Note lines 231-235: `ids` covers every original
chunk while `documents` and `metadatas` are truncated to the first `len(embeddings)`
entries, and `embeddings` holds the embeddings of the surviving chunks. -/
def process_content (env : VecEnv) (col : List Entry) (c : ContentResult) :
    ProcResult × List Entry :=
  let h := c.content_hash env
  let existing := getByHash col h
  if 0 < existing.length then
    (⟨"exists", some existing.length, h, none, none, none⟩, col)
  else
    let chunks := chunksOf c
    if chunks = [] then (⟨"no_chunks", none, h, none, none, none⟩, col)
    else
      let embeddings := embeddingsOf env c
      if embeddings = [] then (⟨"embedding_failed", none, h, none, none, none⟩, col)
      else
        match collectionAdd col (idsOf env c) (chunks.take embeddings.length)
            embeddings ((metasOf env c).take embeddings.length) with
        | some col2 =>
          (⟨"success", some embeddings.length, h, some c.url, some c.title, none⟩, col2)
        | none => (⟨"error", none, h, none, none, some "ValueError"⟩, col)

theorem mkEntries_length_of_eq : ∀ (is ds : List Str) (es : List Emb)
    (ms : List ChunkMeta), is.length = ds.length → is.length = es.length →
    is.length = ms.length → (mkEntries is ds es ms).length = is.length := by
  intro is
  induction is with
  | nil => intro ds es ms _ _ _; rfl
  | cons i is ih =>
    intro ds es ms h1 h2 h3
    cases ds with
    | nil => simp at h1
    | cons d ds =>
      cases es with
      | nil => simp at h2
      | cons e es =>
        cases ms with
        | nil => simp at h3
        | cons m ms =>
          simp only [mkEntries, List.length_cons]
          rw [ih ds es ms (by simpa using h1) (by simpa using h2) (by simpa using h3)]

theorem mem_mkEntries_metadata : ∀ {is ds : List Str} {es : List Emb}
    {ms : List ChunkMeta} {e : Entry}, e ∈ mkEntries is ds es ms → e.metadata ∈ ms := by
  intro is
  induction is with
  | nil => intro ds es ms e he; simp [mkEntries] at he
  | cons i is ih =>
    intro ds es ms e he
    cases ds with
    | nil => simp [mkEntries] at he
    | cons d ds =>
      cases es with
      | nil => simp [mkEntries] at he
      | cons em es =>
        cases ms with
        | nil => simp [mkEntries] at he
        | cons m ms =>
          rcases List.mem_cons.mp he with h1 | h1
          · subst h1; exact List.mem_cons_self _ _
          · exact List.mem_cons_of_mem _ (ih h1)

theorem getByHash_append (col l : List Entry) (h : Str) :
    getByHash (col ++ l) h = getByHash col h ++ getByHash l h :=
  List.filter_append _ _

theorem length_filterMap_le_chunks (env : VecEnv) (c : ContentResult) :
    (embeddingsOf env c).length ≤ (chunksOf c).length := by
  unfold embeddingsOf
  induction chunksOf c with
  | nil => simp
  | cons ch rest ih =>
    rw [List.filterMap_cons]
    cases env.embed (docTask ch) with
    | none => exact le_trans ih (by simp)
    | some e => simpa using ih

/-- Characterisation of a `success` return: the dedup lookup was empty, every chunk got an
embedding (otherwise chromadb's length validation fails the `add`), the reported count is
the number of chunks, and the stored state is the old collection plus the new records. -/
theorem process_content_success (env : VecEnv) (col : List Entry) (c : ContentResult)
    (n : Nat) (hs : (process_content env col c).1.status = "success")
    (hc : (process_content env col c).1.chunks = some n) :
    getByHash col (c.content_hash env) = [] ∧
    (embeddingsOf env c).length = n ∧ (chunksOf c).length = n ∧ 0 < n ∧
    (process_content env col c).2 =
      col ++ mkEntries (idsOf env c) ((chunksOf c).take n) (embeddingsOf env c)
        ((metasOf env c).take n) := by
  unfold process_content at hs hc ⊢
  by_cases h0 : 0 < (getByHash col (c.content_hash env)).length
  · rw [if_pos h0] at hs
    simp at hs
  · rw [if_neg h0] at hs hc ⊢
    have hnil : getByHash col (c.content_hash env) = [] :=
      List.length_eq_zero.mp (by omega)
    by_cases h1 : chunksOf c = []
    · rw [if_pos h1] at hs
      simp at hs
    · rw [if_neg h1] at hs hc ⊢
      by_cases h2 : embeddingsOf env c = []
      · rw [if_pos h2] at hs
        simp at hs
      · rw [if_neg h2] at hs hc ⊢
        rcases hadd : collectionAdd col (idsOf env c)
            ((chunksOf c).take (embeddingsOf env c).length) (embeddingsOf env c)
            ((metasOf env c).take (embeddingsOf env c).length) with _ | col2
        · rw [hadd] at hs
          simp at hs
        · rw [hadd] at hc
          have hn : (embeddingsOf env c).length = n := by
            simpa using hc
          unfold collectionAdd at hadd
          by_cases hlen : (idsOf env c).length =
                ((chunksOf c).take (embeddingsOf env c).length).length ∧
              (idsOf env c).length = (embeddingsOf env c).length ∧
              (idsOf env c).length =
                ((metasOf env c).take (embeddingsOf env c).length).length
          · have hids : (idsOf env c).length = (chunksOf c).length := by
              simp [idsOf]
            have hchunks : (chunksOf c).length = n := by
              have h3 := hlen.2.1
              rw [hids] at h3
              rw [h3, hn]
            have hpos2 : 0 < (embeddingsOf env c).length := List.length_pos.mpr h2
            refine ⟨hnil, hn, hchunks, by omega, ?_⟩
            rw [if_pos hlen] at hadd
            injection hadd with h4
            show col2 = col ++ mkEntries (idsOf env c) ((chunksOf c).take n)
              (embeddingsOf env c) ((metasOf env c).take n)
            rw [← h4, hn]
          · rw [if_neg hlen] at hadd
            simp at hadd

/-- The `exists` short-circuit of `process_content` (lines 183-194): a non-empty dedup
lookup returns immediately, before chunking or embedding. -/
theorem process_content_exists (env : VecEnv) (col : List Entry) (c : ContentResult)
    (h : 0 < (getByHash col (c.content_hash env)).length) :
    process_content env col c =
      (⟨"exists", some (getByHash col (c.content_hash env)).length,
        c.content_hash env, none, none, none⟩, col) := by
  unfold process_content
  rw [if_pos h]

/-- Re-ingesting a record with the same text against the state left by a successful
ingestion returns `exists` with the same count, leaves the store untouched, and does not
depend on the embedding oracle of the second call. -/
theorem process_content_reingest (env env2 : VecEnv) (col : List Entry)
    (c c2 : ContentResult) (n : Nat)
    (hh : env2.hash = env.hash) (ht : c2.text = c.text)
    (hs : (process_content env col c).1.status = "success")
    (hc : (process_content env col c).1.chunks = some n) :
    (process_content env2 (process_content env col c).2 c2).1.status = "exists" ∧
    (process_content env2 (process_content env col c).2 c2).1.chunks = some n ∧
    (process_content env2 (process_content env col c).2 c2).2 =
      (process_content env col c).2 := by
  obtain ⟨hnil, hemb, hchk, hpos, hcol⟩ := process_content_success env col c n hs hc
  have hhash2 : c2.content_hash env2 = c.content_hash env := by
    unfold ContentResult.content_hash
    rw [hh, ht]
  have hmetas : ∀ e ∈ mkEntries (idsOf env c) ((chunksOf c).take n) (embeddingsOf env c)
      ((metasOf env c).take n), e.metadata.content_hash = c.content_hash env := by
    intro e he
    have hm : e.metadata ∈ (metasOf env c).take n := mem_mkEntries_metadata he
    have hm2 : e.metadata ∈ metasOf env c := List.take_subset _ _ hm
    unfold metasOf at hm2
    rw [List.mem_map] at hm2
    obtain ⟨i, _, hi⟩ := hm2
    rw [← hi]
    rfl
  have hget : getByHash ((process_content env col c).2) (c.content_hash env) =
      mkEntries (idsOf env c) ((chunksOf c).take n) (embeddingsOf env c)
        ((metasOf env c).take n) := by
    rw [hcol, getByHash_append, hnil, List.nil_append]
    unfold getByHash
    exact List.filter_eq_self.mpr (fun e he => by simp [hmetas e he])
  have hlen : (mkEntries (idsOf env c) ((chunksOf c).take n) (embeddingsOf env c)
      ((metasOf env c).take n)).length = n := by
    rw [mkEntries_length_of_eq]
    · simp [idsOf, hchk]
    · simp [idsOf, List.length_take, hchk]
    · simp [idsOf, hchk, hemb]
    · simp [idsOf, List.length_take, metasOf, hchk]
  have hget2 : getByHash ((process_content env col c).2) (c2.content_hash env2) =
      mkEntries (idsOf env c) ((chunksOf c).take n) (embeddingsOf env c)
        ((metasOf env c).take n) := by
    rw [hhash2]
    exact hget
  have hex := process_content_exists env2 (process_content env col c).2 c2
    (by rw [hget2, hlen]; exact hpos)
  rw [hex]
  refine ⟨rfl, ?_, rfl⟩
  show some (getByHash (process_content env col c).2 (c2.content_hash env2)).length = some n
  rw [hget2, hlen]

/-- C1: ingestion is idempotent.  If a first `process_content` call returned `success`
with chunk count `n`, a second call with identical `(url, title, text)` against the
resulting state returns `exists` with the same count `n` and writes nothing to the
index.  The second call's result holds for every embedding oracle `env2.embed`
(only the hash function must coincide), so no re-embedding — and in particular no
re-chunking — can have taken place. -/
theorem ingestion_idempotent (env env2 : VecEnv) (col : List Entry)
    (c c2 : ContentResult) (n : Nat)
    (hh : env2.hash = env.hash)
    (_hurl : c2.url = c.url) (_htitle : c2.title = c.title) (ht : c2.text = c.text)
    (hs : (process_content env col c).1.status = "success")
    (hc : (process_content env col c).1.chunks = some n) :
    (process_content env2 (process_content env col c).2 c2).1.status = "exists" ∧
    (process_content env2 (process_content env col c).2 c2).1.chunks = some n ∧
    (process_content env2 (process_content env col c).2 c2).2 =
      (process_content env col c).2 :=
  process_content_reingest env env2 col c c2 n hh ht hs hc

/-- Concrete collaborators for the ingestion witnesses: a hash truncating to 16
characters (standing in for the sha256 hexdigest prefix), an embedder that always
succeeds, and one that always fails. -/
def wHash : Str → Str := fun t => t.take 16

def wEnvA : VecEnv := ⟨wHash, fun _ => some [1]⟩

def wEnvB : VecEnv := ⟨wHash, fun _ => none⟩

def wContent : ContentResult := ⟨"u".toList, "t".toList, "hello world".toList, 0⟩

def wContent2 : ContentResult :=
  ⟨"other-url".toList, "other title".toList, "hello world".toList, 5⟩

/-- Witness for C1: a concrete first ingestion succeeds with 1 chunk; the second call —
run with an embedding oracle that always fails, which would abort any re-embedding —
returns `exists` with count 1 and an unchanged store. -/
theorem ingestion_idempotent_witness :
    (process_content wEnvA [] wContent).1.status = "success" ∧
    (process_content wEnvB (process_content wEnvA [] wContent).2 wContent).1.status
      = "exists" ∧
    (process_content wEnvB (process_content wEnvA [] wContent).2 wContent).1.chunks
      = some 1 ∧
    (process_content wEnvB (process_content wEnvA [] wContent).2 wContent).2 =
      (process_content wEnvA [] wContent).2 := by
  have h := ingestion_idempotent wEnvA wEnvB [] wContent wContent 1 rfl rfl rfl rfl
    (by decide) (by decide)
  exact ⟨by decide, h.1, h.2.1, h.2.2⟩

/-- C10: the dedup key depends on the text alone.  Two records with identical text but
arbitrary (unconstrained) url, title and timestamp share the same `content_hash`, and
after one is successfully ingested, ingesting the other returns `exists` with the same
count and writes nothing. -/
theorem dedup_key_is_text_only (env : VecEnv) (col : List Entry)
    (c c2 : ContentResult) (n : Nat) (ht : c2.text = c.text)
    (hs : (process_content env col c).1.status = "success")
    (hc : (process_content env col c).1.chunks = some n) :
    c2.content_hash env = c.content_hash env ∧
    (process_content env (process_content env col c).2 c2).1.status = "exists" ∧
    (process_content env (process_content env col c).2 c2).1.chunks = some n ∧
    (process_content env (process_content env col c).2 c2).2 =
      (process_content env col c).2 := by
  have h := process_content_reingest env env col c c2 n rfl ht hs hc
  refine ⟨?_, h.1, h.2.1, h.2.2⟩
  unfold ContentResult.content_hash
  rw [ht]

/-- Witness for C10: ingest a text under one url/title, then ingest the same text under a
different url, title and timestamp — same hash, `exists` with count 1, nothing written. -/
theorem dedup_key_is_text_only_witness :
    (process_content wEnvA [] wContent).1.status = "success" ∧
    wContent2.content_hash wEnvA = wContent.content_hash wEnvA ∧
    (process_content wEnvA (process_content wEnvA [] wContent).2 wContent2).1.status
      = "exists" ∧
    (process_content wEnvA (process_content wEnvA [] wContent).2 wContent2).1.chunks
      = some 1 ∧
    (process_content wEnvA (process_content wEnvA [] wContent).2 wContent2).2 =
      (process_content wEnvA [] wContent).2 := by
  have h := dedup_key_is_text_only wEnvA [] wContent wContent2 1 rfl
    (by decide) (by decide)
  exact ⟨by decide, h.1, h.2.1, h.2.2.1, h.2.2.2⟩

/-! ### C2: what actually happens when one chunk's embedding fails and another's
succeeds (content_vectorizer.py lines 205-246). -/

/-- A 401-character sentence: 400 `a`s and a period. -/
def aChunk : Str := List.replicate 400 'a' ++ ['.']

/-- A 201-character sentence: 200 `b`s and a period. -/
def bChunk : Str := List.replicate 200 'b' ++ ['.']

/-- A 603-character text that chunks into exactly `[aChunk, bChunk]` at size 512. -/
def cbText : Str := aChunk ++ ' ' :: bChunk

/-- An embedding oracle that fails on the first chunk and succeeds on everything else. -/
def cbEnv : VecEnv := ⟨wHash, fun t => if t = docTask aChunk then none else some [1]⟩

def cbContent : ContentResult := ⟨"u".toList, "t".toList, cbText, 0⟩

set_option maxRecDepth 100000 in
/-- C2 (claim falsified by the code): with two chunks of which only the second embeds
successfully, the code builds ids for both original chunks but truncates documents and
metadatas to the one-element prefix `[chunks[0]]` — the chunk that has no embedding —
while `embeddings` holds the embedding of chunk 1.  chromadb's batch validation rejects
the unequal lengths, so `process_content` returns status `"error"` and persists nothing,
instead of the claimed `success` with the surviving chunk stored under id
`"{content_hash}_1"` with its own text. -/
theorem partial_embedding_failure_errors :
    chunksOf cbContent = [aChunk, bChunk] ∧
    embeddingsOf cbEnv cbContent = [[1]] ∧
    (idsOf cbEnv cbContent).length = 2 ∧
    ((chunksOf cbContent).take (embeddingsOf cbEnv cbContent).length) = [aChunk] ∧
    (process_content cbEnv [] cbContent).1.status = "error" ∧
    (process_content cbEnv [] cbContent).2 = [] := by
  refine ⟨by decide, by decide, by decide, by decide, by decide, by decide⟩

/-! ### Retrieval: `ContentVectorizer.rag_search` (content_vectorizer.py lines 256-350).

External collaborators: the query-embedding call is the same oracle shape as ingestion;
the ChromaDB nearest-neighbour query is an oracle returning the parallel candidate lists
(documents, metadatas, distances, and optionally the stored embedding vectors); the
numpy cosine computation (dot product of the two L2-normalised vectors, lines 295-304)
is an oracle `cos` on the two vectors, since its floating-point value — as opposed to
how the code uses it — is outside the embedding. -/

/-- The candidate lists returned by `collection.query` for a single query embedding. -/
structure QueryReply where
  documents : List Str
  metadatas : List ChunkMeta
  distances : List ℚ
  embeddings : Option (List Emb)

/-- External collaborators of `rag_search`. -/
structure RagEnv where
  embed : Str → Option Emb
  queryIndex : Emb → Nat → QueryReply
  cos : Emb → Emb → ℚ

/-- The `"search_query: "` task prefixing of the query embedding call (line 263). -/
def queryTask (t : Str) : Str := "search_query: ".toList ++ t

/-- `RAGResult.__init__` (content_vectorizer.py lines 29-37). -/
structure RAGQueryResult where
  query : Str
  retrieved_chunks : List Str
  sources : List ChunkMeta
  generated_response : String
  similarity_scores : List ℚ
deriving DecidableEq

/-- The per-candidate similarity (lines 293-307): recomputed cosine when a stored
embedding for position `i` is available, else `max(0, 1 - distance)`. -/
def simOf (env : RagEnv) (qe : Emb) (reply : QueryReply) (i : Nat) (dist : ℚ) : ℚ :=
  match reply.embeddings with
  | some se => if i < se.length then env.cos qe (se.getD i []) else max 0 (1 - dist)
  | none => max 0 (1 - dist)

/-- The scored candidates in index order: `enumerate(zip(documents, metadatas,
distances))` with the similarity of lines 293-307 attached. -/
def scoredCandidates (env : RagEnv) (qe : Emb) (reply : QueryReply) :
    List ((Str × ChunkMeta) × ℚ) :=
  (reply.documents.zip (reply.metadatas.zip reply.distances)).enum.map
    (fun p => ((p.2.1, p.2.2.1), simOf env qe reply p.1 p.2.2.2))

/-- Sentinel message when the index returned no candidates (line 277). -/
def noCandidatesMsg : String := "No relevant information found in the knowledge base."

/-- Sentinel message when every candidate scored below the threshold (line 321). -/
def belowThresholdMsg : String :=
  "No sufficiently relevant information found in the knowledge base."

/-- `ContentVectorizer.rag_search` (content_vectorizer.py lines 256-350).  A failing
query-embedding call lands in the `except` arm (line 342) and yields the
`"Search failed: …"` result; otherwise candidates are scored in index order, those below
`similarity_threshold` are discarded, and the survivors are returned as parallel arrays
with `generated_response` left empty. -/
def rag_search (env : RagEnv) (query : Str) (max_results : Nat)
    (similarity_threshold : ℚ) : RAGQueryResult :=
  match env.embed (queryTask query) with
  | none => ⟨query, [], [], "Search failed: embedding error", []⟩
  | some qe =>
    let reply := env.queryIndex qe max_results
    if reply.documents = [] then ⟨query, [], [], noCandidatesMsg, []⟩
    else
      let filtered := (scoredCandidates env qe reply).filter
        (fun p => similarity_threshold ≤ p.2)
      if filtered = [] then ⟨query, [], [], belowThresholdMsg, []⟩
      else ⟨query, filtered.map (fun p => p.1.1), filtered.map (fun p => p.1.2), "",
        filtered.map (fun p => p.2)⟩

/-- Branch characterisation: a failing query-embedding call yields the except-arm
result (line 342-350). -/
theorem rag_search_embed_fail (env : RagEnv) (query : Str) (m : Nat) (th : ℚ)
    (h : env.embed (queryTask query) = none) :
    rag_search env query m th =
      ⟨query, [], [], "Search failed: embedding error", []⟩ := by
  unfold rag_search
  rw [h]

/-- Branch characterisation: the index returned no candidates (lines 272-278). -/
theorem rag_search_no_candidates (env : RagEnv) (query : Str) (m : Nat) (th : ℚ)
    (qe : Emb) (h : env.embed (queryTask query) = some qe)
    (h0 : (env.queryIndex qe m).documents = []) :
    rag_search env query m th = ⟨query, [], [], noCandidatesMsg, []⟩ := by
  unfold rag_search
  rw [h]
  simp [h0]

/-- Branch characterisation: candidates were returned but all scored below the
threshold (lines 316-322). -/
theorem rag_search_below_threshold (env : RagEnv) (query : Str) (m : Nat) (th : ℚ)
    (qe : Emb) (h : env.embed (queryTask query) = some qe)
    (h0 : (env.queryIndex qe m).documents ≠ [])
    (h1 : (scoredCandidates env qe (env.queryIndex qe m)).filter
      (fun p => th ≤ p.2) = []) :
    rag_search env query m th = ⟨query, [], [], belowThresholdMsg, []⟩ := by
  unfold rag_search
  rw [h]
  simp [h0, h1]

/-- Branch characterisation: the surviving candidates are returned as parallel arrays
in index order with an empty `generated_response` (lines 324-340). -/
theorem rag_search_main (env : RagEnv) (query : Str) (m : Nat) (th : ℚ)
    (qe : Emb) (h : env.embed (queryTask query) = some qe)
    (h0 : (env.queryIndex qe m).documents ≠ [])
    (h1 : (scoredCandidates env qe (env.queryIndex qe m)).filter
      (fun p => th ≤ p.2) ≠ []) :
    rag_search env query m th =
      ⟨query,
       ((scoredCandidates env qe (env.queryIndex qe m)).filter
         (fun p => th ≤ p.2)).map (fun p => p.1.1),
       ((scoredCandidates env qe (env.queryIndex qe m)).filter
         (fun p => th ≤ p.2)).map (fun p => p.1.2),
       "",
       ((scoredCandidates env qe (env.queryIndex qe m)).filter
         (fun p => th ≤ p.2)).map (fun p => p.2)⟩ := by
  unfold rag_search
  rw [h]
  simp [h0, h1]

/-- C5: the three result arrays of `rag_search` are parallel (same length), every
surviving score is at least `similarity_threshold`, and the surviving `(chunk, score)`
pairs form a sublist of the scored candidate list in exactly the order the index
returned the candidates — no re-sorting by the recomputed score. -/
theorem rag_search_parallel_ordered (env : RagEnv) (query : Str) (m : Nat) (th : ℚ)
    (qe : Emb) (hq : env.embed (queryTask query) = some qe) :
    (rag_search env query m th).sources.length
      = (rag_search env query m th).retrieved_chunks.length ∧
    (rag_search env query m th).similarity_scores.length
      = (rag_search env query m th).retrieved_chunks.length ∧
    (∀ s ∈ (rag_search env query m th).similarity_scores, th ≤ s) ∧
    ((rag_search env query m th).retrieved_chunks.zip
        (rag_search env query m th).similarity_scores).Sublist
      ((scoredCandidates env qe (env.queryIndex qe m)).map (fun p => (p.1.1, p.2))) := by
  by_cases h0 : (env.queryIndex qe m).documents = []
  · rw [rag_search_no_candidates env query m th qe hq h0]
    exact ⟨rfl, rfl, by simp, by simp⟩
  · by_cases h1 : (scoredCandidates env qe (env.queryIndex qe m)).filter
        (fun p => th ≤ p.2) = []
    · rw [rag_search_below_threshold env query m th qe hq h0 h1]
      exact ⟨rfl, rfl, by simp, by simp⟩
    · rw [rag_search_main env query m th qe hq h0 h1]
      refine ⟨by simp, by simp, ?_, ?_⟩
      · intro s hs
        simp only [List.mem_map] at hs
        obtain ⟨p, hp, hps⟩ := hs
        have := List.of_mem_filter hp
        rw [← hps]
        simpa using this
      · rw [List.zip_map']
        exact List.Sublist.map _ (List.filter_sublist _)

/-- Concrete collaborators for the retrieval witnesses: two candidates scored through
the stored-embedding cosine path, with similarities `1` and `0`. -/
def wMeta : ChunkMeta := ⟨"u".toList, "t".toList, 0, "h".toList, 0, 2⟩

def wReply : QueryReply :=
  ⟨["doc0".toList, "doc1".toList], [wMeta, wMeta], [0, 0], some [[1], [2]]⟩

def wRagEnv : RagEnv :=
  ⟨fun _ => some [5], fun _ _ => wReply, fun _ se => if se = [1] then 1 else 0⟩

/-- Witness for C5 at a concrete environment and threshold 1: parallel arrays, each
kept score at least the threshold, and the kept pairs a sublist of the scored
candidates. -/
theorem rag_search_parallel_ordered_witness :
    (rag_search wRagEnv "q".toList 5 1).sources.length
      = (rag_search wRagEnv "q".toList 5 1).retrieved_chunks.length ∧
    (rag_search wRagEnv "q".toList 5 1).similarity_scores = [1] ∧
    ((1 : ℚ) ≤ 1) ∧
    ((rag_search wRagEnv "q".toList 5 1).retrieved_chunks.zip
        (rag_search wRagEnv "q".toList 5 1).similarity_scores).Sublist
      ((scoredCandidates wRagEnv [5] (wRagEnv.queryIndex [5] 5)).map
        (fun p => (p.1.1, p.2))) := by
  have h := rag_search_parallel_ordered wRagEnv "q".toList 5 1 [5] rfl
  refine ⟨h.1, by decide, ?_, h.2.2.2⟩
  exact h.2.2.1 1 (by decide)

theorem filter_length_mono {α : Type} (p q : α → Bool) (l : List α)
    (h : ∀ a, p a = true → q a = true) : (l.filter p).length ≤ (l.filter q).length := by
  induction l with
  | nil => simp
  | cons a t ih =>
    rw [List.filter_cons, List.filter_cons]
    by_cases hp : p a = true
    · rw [if_pos hp, if_pos (h a hp)]
      simpa using ih
    · rw [if_neg hp]
      by_cases hq : q a = true
      · rw [if_pos hq]
        exact le_trans ih (by simp)
      · rw [if_neg hq]
        exact ih

/-- In every branch reached with a fixed candidate list, the number of returned chunks
equals the number of candidates passing the threshold filter. -/
theorem rag_search_length_eq_filter (env : RagEnv) (query : Str) (m : Nat) (t : ℚ)
    (qe : Emb) (hq : env.embed (queryTask query) = some qe)
    (h0 : (env.queryIndex qe m).documents ≠ []) :
    (rag_search env query m t).retrieved_chunks.length =
      ((scoredCandidates env qe (env.queryIndex qe m)).filter
        (fun p => t ≤ p.2)).length := by
  by_cases h1 : (scoredCandidates env qe (env.queryIndex qe m)).filter
      (fun p => t ≤ p.2) = []
  · rw [rag_search_below_threshold env query m t qe hq h0 h1, h1]
    rfl
  · rw [rag_search_main env query m t qe hq h0 h1]
    simp

/-- C6: retrieval monotonicity.  For a fixed environment (fixed query embedding, index
reply and similarity scores), raising the threshold never increases the number of
retrieved chunks. -/
theorem rag_search_threshold_monotone (env : RagEnv) (query : Str) (m : Nat)
    (t1 t2 : ℚ) (h : t1 ≤ t2) :
    (rag_search env query m t2).retrieved_chunks.length ≤
      (rag_search env query m t1).retrieved_chunks.length := by
  rcases hq : env.embed (queryTask query) with _ | qe
  · rw [rag_search_embed_fail env query m t1 hq, rag_search_embed_fail env query m t2 hq]
  · by_cases h0 : (env.queryIndex qe m).documents = []
    · rw [rag_search_no_candidates env query m t1 qe hq h0,
        rag_search_no_candidates env query m t2 qe hq h0]
    · rw [rag_search_length_eq_filter env query m t1 qe hq h0,
        rag_search_length_eq_filter env query m t2 qe hq h0]
      apply filter_length_mono
      intro p hp
      simp only [decide_eq_true_eq] at hp ⊢
      exact le_trans h hp

theorem process_content_status_mem (env : VecEnv) (col : List Entry) (c : ContentResult) :
    (process_content env col c).1.status ∈
      (["exists", "success", "no_chunks", "embedding_failed", "error"] : List String) := by
  unfold process_content
  by_cases h0 : 0 < (getByHash col (c.content_hash env)).length
  · rw [if_pos h0]; simp
  · rw [if_neg h0]
    by_cases h1 : chunksOf c = []
    · rw [if_pos h1]; simp
    · rw [if_neg h1]
      by_cases h2 : embeddingsOf env c = []
      · rw [if_pos h2]; simp
      · rw [if_neg h2]
        rcases hadd : collectionAdd col (idsOf env c)
            ((chunksOf c).take (embeddingsOf env c).length) (embeddingsOf env c)
            ((metasOf env c).take (embeddingsOf env c).length) with _ | col2
        · simp
        · simp

theorem rag_search_parallel_lengths (env : RagEnv) (q : Str) (m : Nat) (th : ℚ) :
    (rag_search env q m th).sources.length
      = (rag_search env q m th).retrieved_chunks.length ∧
    (rag_search env q m th).similarity_scores.length
      = (rag_search env q m th).retrieved_chunks.length := by
  rcases hq : env.embed (queryTask q) with _ | qe
  · rw [rag_search_embed_fail env q m th hq]
    exact ⟨rfl, rfl⟩
  · by_cases h0 : (env.queryIndex qe m).documents = []
    · rw [rag_search_no_candidates env q m th qe hq h0]
      exact ⟨rfl, rfl⟩
    · by_cases h1 : (scoredCandidates env qe (env.queryIndex qe m)).filter
          (fun p => th ≤ p.2) = []
      · rw [rag_search_below_threshold env q m th qe hq h0 h1]
        exact ⟨rfl, rfl⟩
      · rw [rag_search_main env q m th qe hq h0 h1]
        simp

/-- C4: neither ingestion nor retrieval escapes its status/result discipline.  Every
`process_content` run returns a dict whose status is one of the five contract values;
every `rag_search` run returns a well-formed `RAGQueryResult` with parallel arrays; when
the index returns no candidates the result carries the `noCandidatesMsg` sentinel with
empty arrays, when candidates exist but all score below the threshold it carries the
distinct `belowThresholdMsg` sentinel with empty arrays. -/
theorem never_raises_and_sentinels :
    (∀ (env : VecEnv) (col : List Entry) (c : ContentResult),
      (process_content env col c).1.status ∈
        (["exists", "success", "no_chunks", "embedding_failed", "error"] : List String)) ∧
    (∀ (env : RagEnv) (q : Str) (m : Nat) (th : ℚ),
      (rag_search env q m th).sources.length
        = (rag_search env q m th).retrieved_chunks.length ∧
      (rag_search env q m th).similarity_scores.length
        = (rag_search env q m th).retrieved_chunks.length) ∧
    (∀ (env : RagEnv) (q : Str) (m : Nat) (th : ℚ) (qe : Emb),
      env.embed (queryTask q) = some qe → (env.queryIndex qe m).documents = [] →
      rag_search env q m th = ⟨q, [], [], noCandidatesMsg, []⟩) ∧
    (∀ (env : RagEnv) (q : Str) (m : Nat) (th : ℚ) (qe : Emb),
      env.embed (queryTask q) = some qe → (env.queryIndex qe m).documents ≠ [] →
      (scoredCandidates env qe (env.queryIndex qe m)).filter (fun p => th ≤ p.2) = [] →
      rag_search env q m th = ⟨q, [], [], belowThresholdMsg, []⟩) ∧
    noCandidatesMsg ≠ belowThresholdMsg :=
  ⟨process_content_status_mem, rag_search_parallel_lengths,
    fun env q m th qe hq h0 => rag_search_no_candidates env q m th qe hq h0,
    fun env q m th qe hq h0 h1 => rag_search_below_threshold env q m th qe hq h0 h1,
    by decide⟩

/-- A retrieval environment whose index returns no candidates. -/
def wEmptyRagEnv : RagEnv := ⟨fun _ => some [5], fun _ _ => ⟨[], [], [], none⟩, fun _ _ => 0⟩

/-- Witness for C4 at concrete environments: a concrete ingestion status is in the
contract set; an empty index reply yields the no-candidates sentinel; a reply whose two
candidates score 1 and 0 against threshold 9 yields the below-threshold sentinel. -/
theorem never_raises_and_sentinels_witness :
    (process_content wEnvA [] wContent).1.status ∈
      (["exists", "success", "no_chunks", "embedding_failed", "error"] : List String) ∧
    rag_search wEmptyRagEnv "q".toList 5 1 = ⟨"q".toList, [], [], noCandidatesMsg, []⟩ ∧
    rag_search wRagEnv "q".toList 5 9 = ⟨"q".toList, [], [], belowThresholdMsg, []⟩ ∧
    noCandidatesMsg ≠ belowThresholdMsg := by
  have h := never_raises_and_sentinels
  exact ⟨h.1 wEnvA [] wContent,
    h.2.2.1 wEmptyRagEnv "q".toList 5 1 [5] rfl rfl,
    h.2.2.2.1 wRagEnv "q".toList 5 9 [5] rfl (by decide) (by decide),
    h.2.2.2.2⟩

/-- Witness for C6: at the concrete environment, threshold 0 keeps two chunks and
threshold 2 keeps none. -/
theorem rag_search_threshold_monotone_witness :
    (rag_search wRagEnv "q".toList 5 2).retrieved_chunks.length ≤
      (rag_search wRagEnv "q".toList 5 0).retrieved_chunks.length ∧
    (rag_search wRagEnv "q".toList 5 2).retrieved_chunks.length = 0 ∧
    (rag_search wRagEnv "q".toList 5 0).retrieved_chunks.length = 2 := by
  exact ⟨rag_search_threshold_monotone wRagEnv "q".toList 5 0 2 (by decide),
    by decide, by decide⟩

/-! ### Extractor service (`services/extractor/app.py`).

The trafilatura extraction calls, the BeautifulSoup parse and `urllib.parse.urljoin`
are external collaborators; their outcomes are oracle fields.  The cascade logic, the
50-character DOM-fallback gate, `clean_text` and the image pipeline are the repo's own
code and are embedded from it. -/

/-- Python `str.splitlines` restricted to the `\n`, `\r\n` and `\r` terminators
(a trailing terminator produces no final empty line). -/
def splitLinesAux : Str → Str → List Str
  | acc, [] => [acc.reverse]
  | acc, '\r' :: '\n' :: rest =>
    if rest = [] then [acc.reverse] else acc.reverse :: splitLinesAux [] rest
  | acc, '\r' :: rest =>
    if rest = [] then [acc.reverse] else acc.reverse :: splitLinesAux [] rest
  | acc, '\n' :: rest =>
    if rest = [] then [acc.reverse] else acc.reverse :: splitLinesAux [] rest
  | acc, c :: rest => splitLinesAux (c :: acc) rest

def splitLines (s : Str) : List Str := if s = [] then [] else splitLinesAux [] s

/-- Python `str.split("  ")`: split on non-overlapping two-space separators. -/
def splitTwoSpAux : Str → Str → List Str
  | acc, [] => [acc.reverse]
  | acc, ' ' :: ' ' :: rest => acc.reverse :: splitTwoSpAux [] rest
  | acc, c :: rest => splitTwoSpAux (c :: acc) rest

def splitTwoSp (s : Str) : List Str := splitTwoSpAux [] s

def joinWithSpace : List Str → Str
  | [] => []
  | [x] => x
  | x :: xs => x ++ ' ' :: joinWithSpace xs

/-- `clean_text` (app.py lines 147-157): strip each line, split lines on double spaces,
strip the fragments, drop the empty ones, rejoin with single spaces. -/
def clean_text (t : Str) : Str :=
  let lines := (splitLines t).map strip
  let phrases := (lines.map (fun l => (splitTwoSp l).map strip)).flatten
  joinWithSpace (phrases.filter (fun p => ¬ p = []))

/-- The candidate texts produced by the external extraction backends for one page:
`precisionText` is the `text` field parsed from the precision pass's JSON output
(`none` covers an exception, a `None` result and a JSON parse failure), `recallText`
and `basicText` are the raw results of the recall and basic passes, and `domText` is
the text of the content container selected by the BeautifulSoup fallback (`none` models
the soup parse raising). -/
structure ExtractEnv where
  precisionText : Option Str
  recallText : Option Str
  basicText : Option Str
  domText : Option Str

/-- Precision strategy acceptance (app.py lines 65-99): text truthy and stripped length
at least 200, tagged `"precision"`. -/
def tryPrecision (env : ExtractEnv) : Option (Str × String) :=
  match env.precisionText with
  | some t => if t ≠ [] ∧ 200 ≤ (strip t).length then some (t, "precision") else none
  | none => none

/-- Recall strategy acceptance (app.py lines 101-121): result truthy and stripped length
at least 100, tagged `"recall"`. -/
def tryRecall (env : ExtractEnv) : Option (Str × String) :=
  match env.recallText with
  | some t => if t ≠ [] ∧ 100 ≤ (strip t).length then some (t, "recall") else none
  | none => none

/-- Basic strategy acceptance (app.py lines 123-137): accepted whenever the result is
truthy (non-empty), tagged `"basic"`. -/
def tryBasic (env : ExtractEnv) : Option (Str × String) :=
  match env.basicText with
  | some t => if t ≠ [] then some (t, "basic") else none
  | none => none

/-- `extract_with_fallback` (app.py lines 61-139): first accepted candidate wins. -/
def extract_with_fallback (env : ExtractEnv) : Option (Str × String) :=
  match tryPrecision env with
  | some r => some r
  | none =>
    match tryRecall env with
    | some r => some r
    | none => tryBasic env

/-- The BeautifulSoup DOM fallback (app.py lines 276-301): clean the selected
container's text; a soup failure raises HTTP 422. -/
def dom_fallback (env : ExtractEnv) : Except String Str :=
  match env.domText with
  | some d => Except.ok (clean_text d)
  | none => Except.error "Failed to extract readable content"

/-- The text-production portion of `extract_content` (app.py lines 269-308): run the
cascade; if it produced nothing or a text whose stripped length is under 50, run the
DOM fallback; reject texts whose stripped length is under 10; finally clean the text.
The second component is the `extraction_method` merged into the metadata before the
fallback gate (line 273), so it reflects the cascade's accepted strategy even when the
DOM fallback replaces the text. -/
def extract_content_text (env : ExtractEnv) : Except String (Str × Option String) :=
  let fb := extract_with_fallback env
  let step1 : Except String Str :=
    match fb with
    | some (t, _) => if t = [] ∨ (strip t).length < 50 then dom_fallback env
                     else Except.ok t
    | none => dom_fallback env
  match step1 with
  | Except.error e => Except.error e
  | Except.ok t =>
    if t = [] ∨ (strip t).length < 10 then Except.error "No meaningful content extracted"
    else Except.ok (clean_text t, fb.map (fun r => r.2))

def c7Basic : Str := "Test This is a test.".toList

def c7Dom : Str := "Lorem ipsum dolor sit amet, consectetur adipiscing elit tota.".toList

def c7Env : ExtractEnv := ⟨none, none, some c7Basic, some c7Dom⟩

/-- C7 counterexample: with the precision and recall passes rejecting and the Basic
strategy producing the non-empty 20-character text of
`"<h1>Test</h1><p>This is a test.</p>"`, the cascade accepts it — yet the returned text
is the DOM fallback's text, not the accepted basic candidate, because the candidate's
stripped length is under 50; so a non-empty basic candidate does not always become the
returned text, and the DOM fallback runs even though a strategy was accepted. -/
theorem basic_short_text_replaced :
    extract_with_fallback c7Env = some (c7Basic, "basic") ∧
    extract_content_text c7Env = Except.ok (clean_text (clean_text c7Dom), some "basic") ∧
    clean_text (clean_text c7Dom) ≠ c7Basic := by
  refine ⟨by decide, by rfl, by decide⟩

/-- C7 amended: whenever the first two strategies reject and the Basic candidate is
non-empty, it is the cascade's accepted candidate, tagged `"basic"`; it becomes the
returned text only when its stripped length is at least 50; when shorter, the
DOM-heuristic fallback runs (its result still tagged `"basic"`). -/
theorem basic_acceptance_spec (env : ExtractEnv) (t : Str)
    (hp : tryPrecision env = none) (hr : tryRecall env = none)
    (hb : env.basicText = some t) (hne : t ≠ []) :
    extract_with_fallback env = some (t, "basic") ∧
    (50 ≤ (strip t).length →
      extract_content_text env = Except.ok (clean_text t, some "basic")) ∧
    ((strip t).length < 50 →
      extract_content_text env =
        match dom_fallback env with
        | Except.error e => Except.error e
        | Except.ok d =>
          if d = [] ∨ (strip d).length < 10 then
            Except.error "No meaningful content extracted"
          else Except.ok (clean_text d, some "basic")) := by
  have hfb : extract_with_fallback env = some (t, "basic") := by
    unfold extract_with_fallback
    rw [hp, hr]
    simp [tryBasic, hb, hne]
  refine ⟨hfb, ?_, ?_⟩
  · intro h50
    have hcond : ¬ (t = [] ∨ (strip t).length < 50) := by
      rintro (h | h)
      · exact hne h
      · omega
    have hcond2 : ¬ (t = [] ∨ (strip t).length < 10) := by
      rintro (h | h)
      · exact hne h
      · omega
    unfold extract_content_text
    rw [hfb]
    simp only [hcond, if_false, hcond2]
    rfl
  · intro h50
    have hcond : (t = [] ∨ (strip t).length < 50) := Or.inr h50
    unfold extract_content_text
    rw [hfb]
    simp only [hcond, if_true]
    rcases hd : env.domText with _ | d
    · unfold dom_fallback
      rw [hd]
    · unfold dom_fallback
      rw [hd]
      rfl

def c7Long : Str :=
  "This basic extraction result is comfortably longer than the fifty chars.".toList

def c7EnvL : ExtractEnv := ⟨none, none, some c7Long, none⟩

/-- Witness for the amended C7: a 73-character basic candidate is accepted and becomes
the (cleaned) returned text tagged `"basic"`. -/
theorem basic_acceptance_spec_witness :
    extract_with_fallback c7EnvL = some (c7Long, "basic") ∧
    extract_content_text c7EnvL = Except.ok (clean_text c7Long, some "basic") := by
  have h := basic_acceptance_spec c7EnvL c7Long rfl rfl rfl (by decide)
  exact ⟨h.1, h.2.1 (by decide)⟩

/-! ### Image extraction: `extract_images_from_html` (app.py lines 159-202). -/

/-- Python `s.startswith(pat)`. -/
def begins : Str → Str → Bool
  | [], _ => true
  | _ :: _, [] => false
  | p :: ps, c :: cs => p = c && begins ps cs

/-- Python `pat in s` (substring containment). -/
def hasSub : Str → Str → Bool
  | [], pat => pat.isEmpty
  | c :: rest, pat => begins pat (c :: rest) || hasSub rest pat

/-- Python `a or b` over optional strings: an empty string is falsy and falls through. -/
def pyOr (a b : Option Str) : Option Str :=
  match a with
  | some t => if t = [] then b else some t
  | none => b

/-- One `<img>` element's relevant attributes as found by the soup. -/
structure ImgTag where
  src : Option Str
  data_src : Option Str
  data_lazy_src : Option Str

/-- One styled element: its `style` attribute text and the matches of the repo's
`background-image:\s*url\(…\)` regex over it (the regex engine being external). -/
structure StyleElem where
  style : Str
  bgMatches : List Str

/-- The soup-parsed page content plus `urllib.parse.urljoin` as an oracle. -/
structure HtmlEnv where
  imgs : List ImgTag
  styleElems : List StyleElem
  urljoin : Str → Str → Str

/-- `src.startswith(('http://', 'https://', 'data:'))` (app.py lines 171 and 186). -/
def isAbsoluteOrData (s : Str) : Bool :=
  begins "http://".toList s || begins "https://".toList s || begins "data:".toList s

/-- Resolve a relative URL against the page URL (app.py lines 171-172, 186-187). -/
def resolveUrl (env : HtmlEnv) (base s : Str) : Str :=
  if isAbsoluteOrData s then s else env.urljoin base s

/-- The URLs appended by the `<img>` loop (app.py lines 167-176): first truthy of
`src`/`data-src`/`data-lazy-src`, resolved, kept unless a `data:` URI or containing
the case-insensitive `spacer` marker. -/
def imgCandidates (env : HtmlEnv) (base : Str) : List Str :=
  env.imgs.filterMap (fun img =>
    match pyOr img.src (pyOr img.data_src img.data_lazy_src) with
    | none => none
    | some s0 =>
      if s0 = [] then none
      else
        let s := resolveUrl env base s0
        if ¬ begins "data:".toList s = true ∧
            ¬ hasSub (s.map Char.toLower) "spacer".toList = true
        then some s else none)

/-- The URLs appended by the `background-image` loop (app.py lines 179-189): every regex
match of a style containing `background-image:`, resolved, kept unless a `data:` URI —
note: no `spacer` filtering in this loop. -/
def bgCandidates (env : HtmlEnv) (base : Str) : List Str :=
  (env.styleElems.map (fun el =>
    if hasSub el.style "background-image:".toList then
      el.bgMatches.filterMap (fun m =>
        let s := resolveUrl env base m
        if ¬ begins "data:".toList s = true then some s else none)
    else [])).flatten

/-- First-seen-order deduplication (app.py lines 195-200). -/
def dedupFirstAux (seen : List Str) : List Str → List Str
  | [] => []
  | x :: xs =>
    if x ∈ seen then dedupFirstAux seen xs else x :: dedupFirstAux (x :: seen) xs

def dedupFirst (l : List Str) : List Str := dedupFirstAux [] l

/-- `extract_images_from_html` (app.py lines 159-202): img candidates, then background
candidates, deduplicated preserving first-seen order and capped at 50. -/
def extract_images_from_html (env : HtmlEnv) (base : Str) : List Str :=
  (dedupFirst (imgCandidates env base ++ bgCandidates env base)).take 50

theorem dedupFirstAux_sublist : ∀ (l seen : List Str), (dedupFirstAux seen l).Sublist l := by
  intro l
  induction l with
  | nil => intro seen; exact List.Sublist.refl _
  | cons x xs ih =>
    intro seen
    unfold dedupFirstAux
    by_cases h : x ∈ seen
    · rw [if_pos h]
      exact (ih seen).cons x
    · rw [if_neg h]
      exact (ih (x :: seen)).cons₂ x

theorem not_mem_seen_of_mem_dedupFirstAux : ∀ (l seen : List Str) (x : Str),
    x ∈ dedupFirstAux seen l → x ∉ seen := by
  intro l
  induction l with
  | nil => intro seen x hx; simp [dedupFirstAux] at hx
  | cons y ys ih =>
    intro seen x hx
    unfold dedupFirstAux at hx
    by_cases h : y ∈ seen
    · rw [if_pos h] at hx
      exact ih seen x hx
    · rw [if_neg h] at hx
      rcases List.mem_cons.mp hx with h1 | h1
      · subst h1; exact h
      · intro hxs
        exact ih (y :: seen) x h1 (List.mem_cons_of_mem _ hxs)

theorem dedupFirstAux_nodup : ∀ (l seen : List Str), (dedupFirstAux seen l).Nodup := by
  intro l
  induction l with
  | nil => intro seen; simp [dedupFirstAux]
  | cons y ys ih =>
    intro seen
    unfold dedupFirstAux
    by_cases h : y ∈ seen
    · rw [if_pos h]
      exact ih seen
    · rw [if_neg h]
      refine List.Nodup.cons ?_ (ih (y :: seen))
      intro hy
      exact not_mem_seen_of_mem_dedupFirstAux ys (y :: seen) y hy
        (List.mem_cons_self _ _)

theorem mem_imgCandidates {env : HtmlEnv} {base u : Str}
    (h : u ∈ imgCandidates env base) :
    begins "data:".toList u = false ∧
      hasSub (u.map Char.toLower) "spacer".toList = false := by
  unfold imgCandidates at h
  rw [List.mem_filterMap] at h
  obtain ⟨img, _, heq⟩ := h
  rcases hp : pyOr img.src (pyOr img.data_src img.data_lazy_src) with _ | s0 <;>
    rw [hp] at heq
  · simp at heq
  · have heq2 : (if s0 = [] then (none : Option Str)
        else if ¬ begins "data:".toList (resolveUrl env base s0) = true ∧
            ¬ hasSub ((resolveUrl env base s0).map Char.toLower) "spacer".toList = true
          then some (resolveUrl env base s0) else none) = some u := heq
    by_cases h0 : s0 = []
    · rw [if_pos h0] at heq2
      simp at heq2
    · rw [if_neg h0] at heq2
      by_cases h1 : ¬ begins "data:".toList (resolveUrl env base s0) = true ∧
          ¬ hasSub ((resolveUrl env base s0).map Char.toLower) "spacer".toList = true
      · rw [if_pos h1] at heq2
        injection heq2 with h2
        rw [← h2]
        exact ⟨by simpa using h1.1, by simpa using h1.2⟩
      · rw [if_neg h1] at heq2
        simp at heq2

theorem mem_bgCandidates {env : HtmlEnv} {base u : Str}
    (h : u ∈ bgCandidates env base) : begins "data:".toList u = false := by
  unfold bgCandidates at h
  rw [List.mem_flatten] at h
  obtain ⟨l, hl, hul⟩ := h
  rw [List.mem_map] at hl
  obtain ⟨el, _, hel⟩ := hl
  rw [← hel] at hul
  by_cases h0 : hasSub el.style "background-image:".toList
  · rw [if_pos h0] at hul
    rw [List.mem_filterMap] at hul
    obtain ⟨m, _, hm⟩ := hul
    by_cases h1 : ¬ begins "data:".toList (resolveUrl env base m) = true
    · rw [if_pos h1] at hm
      injection hm with h2
      rw [← h2]
      simpa using h1
    · rw [if_neg h1] at hm
      simp at hm
  · rw [if_neg h0] at hul
    simp at hul

/-- C8 amended: the image-extraction result has no `data:` URI, each URL at most once,
at most 50 entries, and is a sublist of the resolved candidate lists in first-seen
(page) order; URLs found through `<img>` tags never contain the `spacer` marker, but —
contrary to the original claim — a `background-image` URL containing `spacer` is kept,
since the CSS loop only filters `data:` URIs. -/
theorem extract_images_spec (env : HtmlEnv) (base : Str) :
    (∀ u ∈ extract_images_from_html env base, begins "data:".toList u = false) ∧
    (extract_images_from_html env base).Nodup ∧
    (extract_images_from_html env base).length ≤ 50 ∧
    (extract_images_from_html env base).Sublist
      (imgCandidates env base ++ bgCandidates env base) ∧
    (∀ u ∈ extract_images_from_html env base, u ∉ bgCandidates env base →
      hasSub (u.map Char.toLower) "spacer".toList = false) := by
  have hsub : (extract_images_from_html env base).Sublist
      (imgCandidates env base ++ bgCandidates env base) :=
    (List.take_sublist _ _).trans (dedupFirstAux_sublist _ [])
  have hmem : ∀ u ∈ extract_images_from_html env base,
      u ∈ imgCandidates env base ++ bgCandidates env base :=
    fun u hu => hsub.subset hu
  refine ⟨?_, ?_, ?_, hsub, ?_⟩
  · intro u hu
    rcases List.mem_append.mp (hmem u hu) with h1 | h1
    · exact (mem_imgCandidates h1).1
    · exact mem_bgCandidates h1
  · exact (dedupFirstAux_nodup _ []).sublist (List.take_sublist _ _)
  · exact List.length_take_le _ _
  · intro u hu hnb
    rcases List.mem_append.mp (hmem u hu) with h1 | h1
    · exact (mem_imgCandidates h1).2
    · exact absurd h1 hnb

def spacerUrl : Str := "http://x/spacer.gif".toList

/-- A page with a single styled element whose background-image URL contains `spacer`. -/
def c8Env : HtmlEnv :=
  ⟨[], [⟨"background-image: url(http://x/spacer.gif)".toList, [spacerUrl]⟩],
    fun b s => b ++ s⟩

/-- C8 counterexample: the background-image loop performs no `spacer` filtering, so a
CSS background URL containing the marker appears in the result — the claim that the
result contains no URL with the `spacer` marker is false. -/
theorem bg_spacer_retained :
    extract_images_from_html c8Env "http://base/".toList = [spacerUrl] ∧
    hasSub (spacerUrl.map Char.toLower) "spacer".toList = true := by
  refine ⟨by decide, by decide⟩

/-- A page with two img URLs (one relative, one absolute), a duplicate and a data URI. -/
def c8wEnv : HtmlEnv :=
  ⟨[⟨some "img/a.png".toList, none, none⟩, ⟨some "http://x/b.png".toList, none, none⟩,
    ⟨some "img/a.png".toList, none, none⟩, ⟨some "data:abc".toList, none, none⟩],
   [], fun b s => b ++ s⟩

/-- Witness for the amended C8 at a concrete page: the relative URL is resolved against
the base, the duplicate collapses to its first occurrence, the data URI is dropped, and
the amended properties hold there. -/
theorem extract_images_spec_witness :
    extract_images_from_html c8wEnv "http://base/".toList =
      ["http://base/img/a.png".toList, "http://x/b.png".toList] ∧
    (extract_images_from_html c8wEnv "http://base/".toList).Nodup ∧
    begins "data:".toList ("http://base/img/a.png".toList) = false := by
  have h := extract_images_spec c8wEnv "http://base/".toList
  exact ⟨by decide, h.2.1, h.1 ("http://base/img/a.png".toList) (by decide)⟩

end WebRag
